import Mathlib

/-!
Verification of the Focal-Reader document structure-recovery pipeline.

Shallow embedding of the core pipeline functions of the repository
(`epub_handler.py`, `pdf_handler.py`, `main_window.py`) as executable Lean
definitions, together with theorems establishing the specified properties.

Modelling conventions:
* Python strings are `List Char`; `text[s:e]` is `pySlice`.
* Python `set` of hrefs is a `List String` with membership.
* Mutable-list loops become structural recursions that build the same lists.
-/

/-- Python slice `t[s:e]` (for `0 ≤ s, e`): drop `s` characters then take
`e - s` (empty whenever `e ≤ s` or `s` is past the end). -/
def pySlice (t : List Char) (s e : Nat) : List Char :=
  (t.drop s).take (e - s)

/-- The whitespace characters stripped by Python's `str.strip()`
(ASCII whitespace; the model covers the characters that occur in the
pipeline's texts). -/
def pyIsSpace (c : Char) : Bool :=
  c = ' ' || c = '\t' || c = '\n' || c = '\r' || c = '\x0b' || c = '\x0c'

/-- Python `str.strip()`: drop leading and trailing whitespace. -/
def stripChars (s : List Char) : List Char :=
  ((s.dropWhile pyIsSpace).reverse.dropWhile pyIsSpace).reverse

/-- Case-folding for the case-insensitive matching used by the pipeline
(`str.lower()`, `re.IGNORECASE`). -/
def lowerList (s : List Char) : List Char :=
  s.map Char.toLower

/-! ## Content-Window Resolver (`_get_epub_chapter_groups`)

`epub_handler.py` lines 164-205 (the same algorithm appears in
`main_window.py` lines 528-556). -/

/-- `missing_essentials = essential_files_from_toc - set(kept_files)`. -/
def missingEssentials (ess kept : List String) : List String :=
  ess.filter (fun e => decide (e ∉ kept))

/-- The rollback loop (`epub_handler.py` lines 165-169):
`while missing_essentials and discarded_files:` pop the most recently
discarded file and re-insert it at the front of `kept`, then recompute the
missing set.  Each iteration pops one discarded unit, so the recursion is
on the length of `discarded`. -/
def rollback (ess kept discarded : List String) : List String × List String :=
  if h : missingEssentials ess kept ≠ [] ∧ discarded ≠ [] then
    rollback ess (discarded.getLast h.2 :: kept) discarded.dropLast
  else
    (kept, discarded)
termination_by discarded.length
decreasing_by
  have hlen : discarded.length ≠ 0 := fun hz => h.2 (List.eq_nil_of_length_eq_zero hz)
  simp only [List.length_dropLast]
  omega

/-- The loop of `epub_handler.py` lines 177-181: the index of the first
kept file whose href is essential (`first_chapter_start_index`, `none`
standing for the sentinel `-1`). -/
def firstEssentialIdx (ess : List String) : List String → Option Nat
  | [] => none
  | h :: t => if h ∈ ess then some 0 else (firstEssentialIdx ess t).map (· + 1)

/-- Front-matter trim (`epub_handler.py` lines 177-190): drop everything
before the first essential kept file; if there is none, keep everything. -/
def trim_front_matter (ess kept : List String) : List String :=
  match firstEssentialIdx ess kept with
  | some i => kept.drop i
  | none => kept

/-- Inner loop of chapter grouping (`epub_handler.py` lines 195-203):
`current_group` accumulates files; a file whose href is essential flushes
the current group and opens a new one; the last group is flushed after the
loop. -/
def groupChaptersGo (ess : List String) (cur : List String) :
    List String → List (List String)
  | [] => [cur]
  | x :: xs =>
    if x ∈ ess then cur :: groupChaptersGo ess [x] xs
    else groupChaptersGo ess (cur ++ [x]) xs

/-- Chapter grouping (`epub_handler.py` lines 193-203): the empty input
yields no groups; otherwise the first file unconditionally opens the first
group. -/
def groupChapters (ess : List String) : List String → List (List String)
  | [] => []
  | x :: xs => groupChaptersGo ess [x] xs

/-! ## Theorems: rollback (C1), grouping (C2), trim (C5) -/

theorem missingEssentials_eq_nil {ess kept : List String} :
    missingEssentials ess kept = [] ↔ ∀ e ∈ ess, e ∈ kept := by
  simp [missingEssentials, List.filter_eq_nil_iff]

/-- C1: if before rollback every essential id appears in `kept` or in
`discarded`, then after the (terminating) rollback loop every essential id
is in the kept list.  Termination itself is witnessed by `rollback` being a
total function (each iteration pops one element of `discarded`). -/
theorem rollback_restores_essentials (ess kept discarded : List String)
    (h : ∀ e ∈ ess, e ∈ kept ∨ e ∈ discarded) :
    ∀ e ∈ ess, e ∈ (rollback ess kept discarded).1 := by
  induction discarded using List.reverseRecOn generalizing kept with
  | nil =>
    intro e he
    rw [rollback]
    simp only [ne_eq, not_true_eq_false, and_false, dite_false]
    rcases h e he with hk | hd
    · exact hk
    · simp at hd
  | append_singleton l a ih =>
    intro e he
    rw [rollback]
    split
    · next hcond =>
      have hg : (l ++ [a]).getLast hcond.2 = a := List.getLast_append _
      have hd : (l ++ [a]).dropLast = l := List.dropLast_concat
      rw [hg, hd]
      refine ih (a :: kept) ?_ e he
      intro x hx
      rcases h x hx with hk | hda
      · exact Or.inl (List.mem_cons_of_mem _ hk)
      · rcases List.mem_append.1 hda with hl | ha
        · exact Or.inr hl
        · simp at ha
          exact Or.inl (by simp [ha])
    · next hcond =>
      push_neg at hcond
      rcases h e he with hk | hd
      · exact hk
      · by_cases hm : missingEssentials ess kept = []
        · exact missingEssentials_eq_nil.1 hm e he
        · exact absurd (hcond hm) (by simp)

/-- C1 witness at a concrete input. -/
theorem rollback_restores_essentials_witness :
    "e" ∈ (rollback ["e"] ["a"] ["e", "b"]).1 :=
  rollback_restores_essentials ["e"] ["a"] ["e", "b"]
    (by decide) "e" (by decide)

theorem groupChaptersGo_join (ess : List String) (xs : List String) :
    ∀ cur, (groupChaptersGo ess cur xs).flatten = cur ++ xs := by
  induction xs with
  | nil => intro cur; simp [groupChaptersGo]
  | cons x xs ih =>
    intro cur
    by_cases hx : x ∈ ess
    · simp [groupChaptersGo, hx, ih]
    · simp [groupChaptersGo, hx, ih]

theorem groupChaptersGo_ne_nil (ess : List String) (xs : List String) :
    ∀ cur, cur ≠ [] → ∀ g ∈ groupChaptersGo ess cur xs, g ≠ [] := by
  induction xs with
  | nil =>
    intro cur hc g hg
    simp [groupChaptersGo] at hg
    simpa [hg] using hc
  | cons x xs ih =>
    intro cur hc g hg
    by_cases hx : x ∈ ess
    · simp only [groupChaptersGo, if_pos hx, List.mem_cons] at hg
      rcases hg with rfl | hg
      · exact hc
      · exact ih [x] (by simp) g hg
    · simp only [groupChaptersGo, if_neg hx] at hg
      exact ih (cur ++ [x]) (by simp) g hg

/-- C2: the chapter groups produced by the grouping step are each
non-empty, and concatenating them in order reproduces the input list of
kept files exactly (a contiguous partition in document order). -/
theorem chapter_groups_partition (ess files : List String) :
    (groupChapters ess files).flatten = files ∧
      ∀ g ∈ groupChapters ess files, g ≠ [] := by
  cases files with
  | nil => simp [groupChapters]
  | cons x xs =>
    constructor
    · simpa using groupChaptersGo_join ess xs [x]
    · exact groupChaptersGo_ne_nil ess xs [x] (by simp)

theorem firstEssentialIdx_eq_none {ess l : List String} :
    firstEssentialIdx ess l = none ↔ ∀ x ∈ l, x ∉ ess := by
  induction l with
  | nil => simp [firstEssentialIdx]
  | cons h t ih =>
    by_cases hh : h ∈ ess
    · simp [firstEssentialIdx, hh]
    · simp [firstEssentialIdx, hh, ih]

/-- C5: front-matter trim returns the suffix of `kept` starting at its
first essential element, and returns `kept` unchanged when no element of
`kept` is essential (fail open). -/
theorem front_matter_trim_correct (ess kept : List String) :
    ((∀ x ∈ kept, x ∉ ess) → trim_front_matter ess kept = kept) ∧
      (∀ pre x suf, kept = pre ++ x :: suf → x ∈ ess →
        (∀ y ∈ pre, y ∉ ess) → trim_front_matter ess kept = x :: suf) := by
  constructor
  · intro hnone
    unfold trim_front_matter
    rw [firstEssentialIdx_eq_none.2 hnone]
  · intro pre
    induction pre generalizing kept with
    | nil =>
      intro x suf hk hx _
      subst hk
      simp [trim_front_matter, firstEssentialIdx, hx]
    | cons p pre ih =>
      intro x suf hk hx hpre
      subst hk
      have hp : p ∉ ess := hpre p (by simp)
      have hrest := ih (pre ++ x :: suf) x suf rfl hx
        (fun y hy => hpre y (by simp [hy]))
      have hne : firstEssentialIdx ess (pre ++ x :: suf) ≠ none := by
        intro hnone
        exact (firstEssentialIdx_eq_none.1 hnone) x (by simp) hx
      rcases Option.ne_none_iff_exists'.1 hne with ⟨i, hi⟩
      unfold trim_front_matter at hrest ⊢
      rw [hi] at hrest
      simp [firstEssentialIdx, hp, hi]
      exact hrest

/-- C5 witness at a concrete input. -/
theorem front_matter_trim_correct_witness :
    trim_front_matter ["c"] ["a", "c", "b"] = ["c", "b"] :=
  (front_matter_trim_correct ["c"] ["a", "c", "b"]).2
    ["a"] "c" ["b"] rfl (by decide) (by decide)

/-! ## Junk/Essential Classifier (`_get_epub_chapter_groups`, phase 1)

`epub_handler.py` lines 127-162: each spine document's extracted text
(`BeautifulSoup(...).get_text().strip()`) is inspected; documents are
routed to the kept / discarded / non-text lists.  A document is modelled
as a pair of its href and its stripped extracted text. -/

/-- The fixed junk-keyword list (`epub_handler.py` lines 127-132). -/
def skip_keywords : List (List Char) :=
  ["copyright".toList, "isbn".toList, "translation by".toList,
   "cover art".toList, "yen press".toList, "kadawa".toList,
   "tuttle-mori".toList, "library of congress".toList, "lccn".toList,
   "e-book".toList, "ebook".toList, "first published".toList,
   "english translation".toList, "visit us at".toList, "novel".toList,
   "download".toList]

def JUNK_CHECK_LIMIT : Nat := 5

/-- Python's substring test `needle in hay`. -/
def containsSub (needle : List Char) : List Char → Bool
  | [] => needle.isEmpty
  | c :: t => needle.isPrefixOf (c :: t) || containsSub needle t

/-- `any(keyword in text_content.lower() for keyword in skip_keywords)`. -/
def isJunk (text : List Char) : Bool :=
  skip_keywords.any (fun kw => containsSub kw (lowerList text))

structure ClassifyResult where
  kept : List String
  discarded : List String
  nonText : List String
deriving DecidableEq

/-- The classifier loop of `epub_handler.py` lines 147-162, with
`documents_checked_count` as the `count` parameter.  A document with empty
extracted text is put in the non-text map and *also* appended to the kept
list ("Keep non-text files for now"); a text-bearing document is
junk-checked only while fewer than `JUNK_CHECK_LIMIT` text-bearing
documents have been checked, and is kept unconditionally afterwards. -/
def classifyGo (count : Nat) : List (String × List Char) → ClassifyResult
  | [] => ⟨[], [], []⟩
  | (href, text) :: rest =>
    if text = [] then
      let r := classifyGo count rest
      ⟨href :: r.kept, r.discarded, href :: r.nonText⟩
    else if count < JUNK_CHECK_LIMIT then
      if isJunk text then
        let r := classifyGo (count + 1) rest
        ⟨r.kept, href :: r.discarded, r.nonText⟩
      else
        let r := classifyGo (count + 1) rest
        ⟨href :: r.kept, r.discarded, r.nonText⟩
    else
      let r := classifyGo count rest
      ⟨href :: r.kept, r.discarded, r.nonText⟩

def classifyDocs (docs : List (String × List Char)) : ClassifyResult :=
  classifyGo 0 docs

/-- Number of text-bearing documents strictly before the document with
href `h` in spine order. -/
def textCountBefore (docs : List (String × List Char)) (h : String) : Nat :=
  ((docs.takeWhile (fun p => decide (p.1 ≠ h))).filter
    (fun p => decide (p.2 ≠ []))).length

theorem textCountBefore_cons_self (h : String) (t₀ : List Char)
    (rest : List (String × List Char)) :
    textCountBefore ((h, t₀) :: rest) h = 0 := by
  simp [textCountBefore, List.takeWhile]

theorem textCountBefore_cons_ne (h₀ h : String) (t₀ : List Char)
    (rest : List (String × List Char)) (hne : h₀ ≠ h) :
    textCountBefore ((h₀, t₀) :: rest) h =
      (if t₀ = [] then 0 else 1) + textCountBefore rest h := by
  by_cases ht : t₀ = [] <;>
    simp [textCountBefore, List.takeWhile, List.filter, hne, ht] <;> omega

theorem classifyGo_subset (docs : List (String × List Char)) :
    ∀ count x,
      x ∈ (classifyGo count docs).kept ∨ x ∈ (classifyGo count docs).discarded ∨
        x ∈ (classifyGo count docs).nonText →
      x ∈ docs.map Prod.fst := by
  induction docs with
  | nil => intro count x hx; simp [classifyGo] at hx
  | cons d rest ih =>
    intro count x hx
    obtain ⟨href, text⟩ := d
    simp only [classifyGo] at hx
    simp only [List.map_cons, List.mem_cons]
    by_cases ht : text = []
    · simp only [if_pos ht, List.mem_cons] at hx
      rcases hx with (rfl | hx) | hx | (rfl | hx)
      · exact Or.inl rfl
      · exact Or.inr (ih count x (Or.inl hx))
      · exact Or.inr (ih count x (Or.inr (Or.inl hx)))
      · exact Or.inl rfl
      · exact Or.inr (ih count x (Or.inr (Or.inr hx)))
    · by_cases hc : count < JUNK_CHECK_LIMIT
      · by_cases hj : isJunk text
        · simp only [if_neg ht, if_pos hc, if_pos hj, List.mem_cons] at hx
          rcases hx with hx | (rfl | hx) | hx
          · exact Or.inr (ih (count + 1) x (Or.inl hx))
          · exact Or.inl rfl
          · exact Or.inr (ih (count + 1) x (Or.inr (Or.inl hx)))
          · exact Or.inr (ih (count + 1) x (Or.inr (Or.inr hx)))
        · simp only [if_neg ht, if_pos hc, if_neg hj, List.mem_cons] at hx
          rcases hx with (rfl | hx) | hx | hx
          · exact Or.inl rfl
          · exact Or.inr (ih (count + 1) x (Or.inl hx))
          · exact Or.inr (ih (count + 1) x (Or.inr (Or.inl hx)))
          · exact Or.inr (ih (count + 1) x (Or.inr (Or.inr hx)))
      · simp only [if_neg ht, if_neg hc, List.mem_cons] at hx
        rcases hx with (rfl | hx) | hx | hx
        · exact Or.inl rfl
        · exact Or.inr (ih count x (Or.inl hx))
        · exact Or.inr (ih count x (Or.inr (Or.inl hx)))
        · exact Or.inr (ih count x (Or.inr (Or.inr hx)))

/-- How the classifier routes a document with href `h`, stripped text `t`
and `k` text-bearing documents counted before it: empty text is routed to
the non-text branch and also kept; a text-bearing document within the
junk-check window is discarded exactly when its lowered text contains a
junk keyword; a text-bearing document past the window is unconditionally
kept. -/
def RoutesTo (r : ClassifyResult) (h : String) (t : List Char) (k : Nat) :
    Prop :=
  (t = [] → h ∈ r.kept ∧ h ∈ r.nonText ∧ h ∉ r.discarded) ∧
  (t ≠ [] →
    (k < JUNK_CHECK_LIMIT →
      (isJunk t = true → h ∈ r.discarded ∧ h ∉ r.kept) ∧
      (isJunk t = false → h ∈ r.kept ∧ h ∉ r.discarded)) ∧
    (JUNK_CHECK_LIMIT ≤ k → h ∈ r.kept ∧ h ∉ r.discarded))

theorem RoutesTo_cons_nonText {r : ClassifyResult} {h a : String}
    {t : List Char} {k : Nat} (hne : h ≠ a) (hr : RoutesTo r h t k) :
    RoutesTo ⟨a :: r.kept, r.discarded, a :: r.nonText⟩ h t k := by
  simpa [RoutesTo, hne] using hr

theorem RoutesTo_cons_discarded {r : ClassifyResult} {h a : String}
    {t : List Char} {k : Nat} (hne : h ≠ a) (hr : RoutesTo r h t k) :
    RoutesTo ⟨r.kept, a :: r.discarded, r.nonText⟩ h t k := by
  simpa [RoutesTo, hne] using hr

theorem RoutesTo_cons_kept {r : ClassifyResult} {h a : String}
    {t : List Char} {k : Nat} (hne : h ≠ a) (hr : RoutesTo r h t k) :
    RoutesTo ⟨a :: r.kept, r.discarded, r.nonText⟩ h t k := by
  simpa [RoutesTo, hne] using hr

theorem RoutesTo_congr_k {r : ClassifyResult} {h : String} {t : List Char}
    {k k' : Nat} (hiff : k < JUNK_CHECK_LIMIT ↔ k' < JUNK_CHECK_LIMIT)
    (hr : RoutesTo r h t k') : RoutesTo r h t k := by
  refine ⟨hr.1, fun ht => ⟨fun hk => (hr.2 ht).1 (hiff.1 hk), fun hk => ?_⟩⟩
  refine (hr.2 ht).2 ?_
  rcases Nat.lt_or_ge k' JUNK_CHECK_LIMIT with hlt | hge
  · exact absurd (hiff.2 hlt) (by omega)
  · exact hge

theorem classifyGo_routes (docs : List (String × List Char)) :
    ∀ count, count ≤ JUNK_CHECK_LIMIT → (docs.map Prod.fst).Nodup →
    ∀ h t, (h, t) ∈ docs →
      RoutesTo (classifyGo count docs) h t (count + textCountBefore docs h) := by
  induction docs with
  | nil => intro _ _ _ h t hmem; simp at hmem
  | cons d rest ih =>
    intro count hcount hnd h t hmem
    obtain ⟨h₀, t₀⟩ := d
    simp only [List.map_cons, List.nodup_cons] at hnd
    obtain ⟨hh₀, hndr⟩ := hnd
    rcases List.mem_cons.1 hmem with heq | hmemr
    · -- the document is the head of the spine
      rcases heq with ⟨rfl, rfl⟩
      rw [textCountBefore_cons_self]
      have hsub := classifyGo_subset rest
      constructor
      · intro ht
        simp only [classifyGo, if_pos ht]
        exact ⟨by simp, by simp,
          fun hd => hh₀ (hsub count h (Or.inr (Or.inl hd)))⟩
      · intro ht
        constructor
        · intro hk
          have hc : count < JUNK_CHECK_LIMIT := by omega
          constructor
          · intro hj
            simp only [classifyGo, if_neg ht, if_pos hc, if_pos hj]
            exact ⟨by simp, fun hkept => hh₀ (hsub (count + 1) h (Or.inl hkept))⟩
          · intro hj
            simp only [classifyGo, if_neg ht, if_pos hc,
              if_neg (by simp [hj] : ¬ isJunk t = true)]
            exact ⟨by simp,
              fun hd => hh₀ (hsub (count + 1) h (Or.inr (Or.inl hd)))⟩
        · intro hk
          have hc : ¬ count < JUNK_CHECK_LIMIT := by omega
          simp only [classifyGo, if_neg ht, if_neg hc]
          exact ⟨by simp, fun hd => hh₀ (hsub count h (Or.inr (Or.inl hd)))⟩
    · -- the document is in the tail
      have hne : h ≠ h₀ := by
        intro hcontra
        exact hh₀ (hcontra ▸ List.mem_map_of_mem Prod.fst hmemr)
      rw [textCountBefore_cons_ne h₀ h t₀ rest (Ne.symm hne)]
      by_cases ht₀ : t₀ = []
      · have hr := ih count hcount hndr h t hmemr
        have hkeq : count + ((if t₀ = [] then 0 else 1) + textCountBefore rest h)
            = count + textCountBefore rest h := by
          simp [ht₀]
        rw [hkeq]
        simp only [classifyGo, if_pos ht₀]
        exact RoutesTo_cons_nonText hne hr
      · by_cases hc : count < JUNK_CHECK_LIMIT
        · have hr := ih (count + 1) (by omega) hndr h t hmemr
          have hkeq : count + ((if t₀ = [] then 0 else 1) + textCountBefore rest h)
              = count + 1 + textCountBefore rest h := by
            simp [ht₀]; omega
          rw [hkeq]
          by_cases hj : isJunk t₀
          · simp only [classifyGo, if_neg ht₀, if_pos hc, if_pos hj]
            exact RoutesTo_cons_discarded hne hr
          · simp only [classifyGo, if_neg ht₀, if_pos hc, if_neg hj]
            exact RoutesTo_cons_kept hne hr
        · have hr := ih count hcount hndr h t hmemr
          simp only [classifyGo, if_neg ht₀, if_neg hc]
          refine RoutesTo_cons_kept hne (RoutesTo_congr_k ?_ hr)
          have hc5 : count = JUNK_CHECK_LIMIT := by omega
          simp [ht₀, hc5]

/-- C6 counterexample: a document with empty extracted text *is* appended
to the kept list (`epub_handler.py` line 154, "Keep non-text files for
now") in addition to being routed to the non-text branch, refuting the
claim that such a document is never classified as kept. -/
theorem classifier_empty_text_kept_counterexample :
    "a" ∈ (classifyDocs [("a", [])]).kept ∧
      "a" ∈ (classifyDocs [("a", [])]).nonText := by
  decide

/-- C6 amended: an empty-text document is routed to the non-text branch
*and* appended to the kept list (never discarded, never junk-checked);
among text-bearing documents exactly the first `JUNK_CHECK_LIMIT = 5` are
junk-checked, such a document being discarded iff its lower-cased text
contains a junk keyword, and every text-bearing document after the first 5
is unconditionally kept. -/
theorem classifier_routes_amended (docs : List (String × List Char))
    (hnd : (docs.map Prod.fst).Nodup) (h : String) (t : List Char)
    (hmem : (h, t) ∈ docs) :
    RoutesTo (classifyDocs docs) h t (textCountBefore docs h) := by
  simpa using classifyGo_routes docs 0 (by simp [JUNK_CHECK_LIMIT]) hnd h t hmem

/-- C6 witness at a concrete input. -/
theorem classifier_routes_amended_witness :
    "a" ∈ (classifyDocs [("a", ['x']), ("b", [])]).kept :=
  ((((classifier_routes_amended [("a", ['x']), ("b", [])] (by decide)
      "a" ['x'] (by decide)).2 (by decide)).1 (by decide)).2 (by decide)).1

/-! ## Footer Stripper (`_clean_text_of_footers`)

`pdf_handler.py` lines 143-148 (duplicated in `main_window.py` lines
800-804): every pattern in the footer-pattern list is applied with
`pattern.sub(readonly, text)` deleting each non-overlapping match
left-to-right, and the result is finally `strip()`ed.  Patterns are
modelled as case-insensitive literal strings, the form produced by
`add_and_reprocess_footer` (`re.compile(re.escape(footer_text),
re.IGNORECASE)`, `main_window.py` line 1040). -/

/-- One `pattern.sub(replacement-empty, text)` pass for a literal
case-insensitive pattern `p`: scan left to right, delete each match and
resume after it.  The `fuel` argument (seeded with the text length, which
always suffices since every step consumes at least one character) makes
the recursion structural so that the function evaluates by `decide`. -/
def subAllGo (p : List Char) : Nat → List Char → List Char
  | _, [] => []
  | 0, s => s
  | fuel + 1, c :: cs =>
    if p ≠ [] ∧ (lowerList p).isPrefixOf (lowerList (c :: cs)) = true then
      subAllGo p fuel ((c :: cs).drop p.length)
    else c :: subAllGo p fuel cs

def subAll (p s : List Char) : List Char :=
  subAllGo p s.length s

/-- `_clean_text_of_footers`: fold all patterns over the block text, then
strip surrounding whitespace. -/
def clean_text_of_footers (patterns : List (List Char))
    (block_text : List Char) : List Char :=
  stripChars (patterns.foldl (fun acc p => subAll p acc) block_text)

theorem dropWhile_idem (p : Char → Bool) (l : List Char) :
    (l.dropWhile p).dropWhile p = l.dropWhile p := by
  induction l with
  | nil => simp
  | cons a l ih =>
    by_cases h : p a
    · simp [List.dropWhile_cons, h, ih]
    · simp [List.dropWhile_cons, h]

theorem dropWhile_head_not (p : Char → Bool) (l : List Char) :
    ∀ a, (l.dropWhile p).head? = some a → p a = false := by
  induction l with
  | nil => intro a ha; simp at ha
  | cons b l ih =>
    intro a ha
    by_cases h : p b
    · rw [List.dropWhile_cons, if_pos h] at ha
      exact ih a ha
    · rw [List.dropWhile_cons, if_neg h] at ha
      simp only [List.head?_cons, Option.some.injEq] at ha
      rw [← ha]
      exact Bool.eq_false_iff.2 h
  
theorem dropWhile_eq_self_of_head (p : Char → Bool) (l : List Char)
    (h : ∀ a, l.head? = some a → p a = false) : l.dropWhile p = l := by
  cases l with
  | nil => simp
  | cons b l =>
    have hb := h b rfl
    simp [List.dropWhile_cons, hb]

/-- The right-strip half of `str.strip()`. -/
def rstripChars (s : List Char) : List Char :=
  (s.reverse.dropWhile pyIsSpace).reverse

theorem stripChars_eq (s : List Char) :
    stripChars s = rstripChars (s.dropWhile pyIsSpace) := rfl

theorem rstripChars_idem (s : List Char) :
    rstripChars (rstripChars s) = rstripChars s := by
  unfold rstripChars
  rw [List.reverse_reverse, dropWhile_idem]

theorem dropWhile_is_suffix (p : Char → Bool) (l : List Char) :
    ∃ t, t ++ l.dropWhile p = l := by
  induction l with
  | nil => exact ⟨[], rfl⟩
  | cons b l ih =>
    by_cases h : p b
    · obtain ⟨t, ht⟩ := ih
      exact ⟨b :: t, by simp [List.dropWhile_cons, h, ht]⟩
    · exact ⟨[], by simp [List.dropWhile_cons, h]⟩

theorem rstripChars_is_prefix (s : List Char) :
    ∃ u, rstripChars s ++ u = s := by
  obtain ⟨t, ht⟩ := dropWhile_is_suffix pyIsSpace s.reverse
  refine ⟨t.reverse, ?_⟩
  rw [rstripChars, ← List.reverse_append, ht, List.reverse_reverse]

theorem head?_of_append_eq {t u l : List Char} (h : t ++ u = l)
    (hne : t ≠ []) : t.head? = l.head? := by
  cases t with
  | nil => exact absurd rfl hne
  | cons a t => rw [← h]; rfl

theorem stripChars_idem (s : List Char) :
    stripChars (stripChars s) = stripChars s := by
  have hdw : (stripChars s).dropWhile pyIsSpace = stripChars s := by
    apply dropWhile_eq_self_of_head
    intro a ha
    obtain ⟨u, hu⟩ := rstripChars_is_prefix (s.dropWhile pyIsSpace)
    have hne : rstripChars (s.dropWhile pyIsSpace) ≠ [] := by
      intro hnil
      rw [stripChars_eq, hnil] at ha
      simp at ha
    rw [stripChars_eq, head?_of_append_eq hu hne] at ha
    exact dropWhile_head_not pyIsSpace s a ha
  rw [stripChars_eq (stripChars s), hdw, stripChars_eq s, rstripChars_idem]

theorem foldl_subAll_fixed (patterns : List (List Char)) (c : List Char)
    (hfix : ∀ p ∈ patterns, subAll p c = c) :
    patterns.foldl (fun acc p => subAll p acc) c = c := by
  induction patterns with
  | nil => rfl
  | cons p ps ih =>
    rw [List.foldl_cons, hfix p (by simp)]
    exact ih (fun q hq => hfix q (by simp [hq]))

/-- C7 counterexample: with the (user-addable) literal pattern `"ab"` and
block text `"aabb"`, one cleaning pass yields `"ab"` (deleting the single
match re-joins an `a` and a `b` into a fresh match) and a second pass
yields the empty text, so `_clean_text_of_footers` is not idempotent. -/
theorem footer_strip_not_idempotent :
    clean_text_of_footers [['a', 'b']]
        (clean_text_of_footers [['a', 'b']] ['a', 'a', 'b', 'b']) ≠
      clean_text_of_footers [['a', 'b']] ['a', 'a', 'b', 'b'] := by
  decide

/-- C7 amended: re-running the Footer Stripper with an unchanged pattern
set is a no-op on the already-cleaned text *provided* no pattern matches
the cleaned text any more (deleting matches can create new matches, as the
counterexample shows, so stability of the cleaned text is required). -/
theorem footer_strip_idempotent_of_stable (patterns : List (List Char))
    (t : List Char)
    (hfix : ∀ p ∈ patterns,
      subAll p (clean_text_of_footers patterns t) =
        clean_text_of_footers patterns t) :
    clean_text_of_footers patterns (clean_text_of_footers patterns t) =
      clean_text_of_footers patterns t := by
  show stripChars (patterns.foldl (fun acc p => subAll p acc)
      (clean_text_of_footers patterns t)) = clean_text_of_footers patterns t
  rw [foldl_subAll_fixed patterns _ hfix]
  exact stripChars_idem _

/-- C7 witness at a concrete input. -/
theorem footer_strip_idempotent_of_stable_witness :
    clean_text_of_footers [['x']] (clean_text_of_footers [['x']] ['a', 'x'])
      = clean_text_of_footers [['x']] ['a', 'x'] :=
  footer_strip_idempotent_of_stable [['x']] ['a', 'x'] (by decide)

/-- C10: the output of `_clean_text_of_footers` never has leading or
trailing whitespace (it is a fixed point of `strip`); with an empty
pattern list the function returns the stripped input, and it is not the
identity even on footer-free text. -/
theorem clean_text_output_stripped :
    (∀ patterns t, stripChars (clean_text_of_footers patterns t) =
      clean_text_of_footers patterns t) ∧
    (∀ t, clean_text_of_footers [] t = stripChars t) ∧
    clean_text_of_footers [] [' ', 'a', ' '] ≠ [' ', 'a', ' '] := by
  refine ⟨fun patterns t => ?_, fun t => rfl, by decide⟩
  show stripChars (stripChars _) = _
  exact stripChars_idem _

/-! ## TOC page detection (`_detect_pdf_start_page`)

`pdf_handler.py` lines 71-88 (duplicated in `main_window.py` lines
766-788): deduplicate and sort the candidate pages, then walk the sorted
list keeping the contiguous run that starts at the smallest candidate;
`toc_pages` is that run and the start page is its last page plus one. -/

/-- `sorted(list(set(candidates)))`. -/
def sortedUnique (candidates : List Nat) : List Nat :=
  List.insertionSort (· ≤ ·) candidates.dedup

/-- The loop of `pdf_handler.py` lines 82-87: extend the run while each
next unique candidate is the previous one plus one, stopping at the first
gap. -/
def contigRun (prev : Nat) : List Nat → List Nat
  | [] => []
  | x :: xs => if x = prev + 1 then x :: contigRun x xs else []

/-- `_detect_pdf_start_page`: returns the recorded `toc_pages` run and the
start page (`true_last_toc_page + 1`, and `0` when there are no
candidates). -/
def detect_pdf_start_page (candidates : List Nat) : List Nat × Nat :=
  match sortedUnique candidates with
  | [] => ([], 0)
  | first :: rest =>
    let tail := contigRun first rest
    (first :: tail, tail.getLastD first + 1)

theorem contigRun_split (l : List Nat) :
    ∀ prev, ∃ rem, l = contigRun prev l ++ rem ∧
      ∀ y ∈ rem.head?, y ≠ (contigRun prev l).getLastD prev + 1 := by
  induction l with
  | nil => intro prev; exact ⟨[], rfl, by simp⟩
  | cons x xs ih =>
    intro prev
    by_cases hx : x = prev + 1
    · obtain ⟨rem, hrem, hmax⟩ := ih x
      refine ⟨rem, ?_, ?_⟩
      · simp only [contigRun, if_pos hx, List.cons_append]
        rw [← hrem]
      · simp only [contigRun, if_pos hx, List.getLastD_cons]
        exact hmax
    · refine ⟨x :: xs, ?_, ?_⟩
      · simp [contigRun, hx]
      · simp only [contigRun, if_neg hx, List.getLastD_nil, List.head?_cons]
        intro y hy
        simp only [Option.mem_def, Option.some.injEq] at hy
        rw [← hy]
        exact hx

theorem contigRun_chain (l : List Nat) :
    ∀ prev, List.Chain (fun a b => b = a + 1) prev (contigRun prev l) := by
  induction l with
  | nil => intro prev; exact List.Chain.nil
  | cons x xs ih =>
    intro prev
    by_cases hx : x = prev + 1
    · simp only [contigRun, if_pos hx]
      exact List.Chain.cons hx (ih x)
    · simp only [contigRun, if_neg hx]
      exact List.Chain.nil

/-- C8: `_detect_pdf_start_page` records as `toc_pages` the maximal
contiguous run of the sorted unique candidates starting at the smallest
one (the run is a prefix of the sorted unique list, is a `+1`-chain from
its first element, and the next sorted candidate after it, if any, breaks
the chain) and returns the last page of that run plus one; candidates
`[2,3,4,6]` yield `toc_pages = [2,3,4]` and start page `5`, and no
candidates yield start page `0`. -/
theorem detect_start_page_correct (candidates : List Nat) :
    (sortedUnique candidates = [] → detect_pdf_start_page candidates = ([], 0)) ∧
    (∀ first rest, sortedUnique candidates = first :: rest →
      ∃ rem, rest = contigRun first rest ++ rem ∧
        List.Chain (fun a b => b = a + 1) first (contigRun first rest) ∧
        (detect_pdf_start_page candidates).1 = first :: contigRun first rest ∧
        (∀ y ∈ rem.head?, y ≠ (contigRun first rest).getLastD first + 1) ∧
        (detect_pdf_start_page candidates).2 =
          (contigRun first rest).getLastD first + 1) ∧
    detect_pdf_start_page [2, 3, 4, 6] = ([2, 3, 4], 5) ∧
    detect_pdf_start_page [] = ([], 0) := by
  refine ⟨?_, ?_, by decide, by decide⟩
  · intro h
    simp [detect_pdf_start_page, h]
  · intro first rest h
    obtain ⟨rem, hrem, hmax⟩ := contigRun_split rest first
    exact ⟨rem, hrem, contigRun_chain rest first,
      by simp [detect_pdf_start_page, h], hmax,
      by simp [detect_pdf_start_page, h]⟩

/-- C8 witness at a concrete input. -/
theorem detect_start_page_correct_witness :
    (detect_pdf_start_page [2, 3, 4, 6]).2 =
      (contigRun 2 [3, 4, 6]).getLastD 2 + 1 := by
  obtain ⟨rem, _, _, _, _, h5⟩ :=
    (detect_start_page_correct [2, 3, 4, 6]).2.1 2 [3, 4, 6] (by decide)
  exact h5

/-! ## Re-segmentation: sentence spans (C3)

`main_window.py` lines 940-942 (`_process_pdf_text`) and 992-994
(`_process_epub_text`): the displayed text (`text_area.toPlainText()`) is
re-tokenized and the sentences are sliced from it by the produced spans.
The external sentence tokenizer (`nltk` punkt `span_tokenize`) is a
function parameter; the GUI text widget is modelled as storing the set
text verbatim. -/

structure NavState where
  finalText : List Char
  sentence_spans : List (Nat × Nat)
  sentences : List (List Char)

/-- Lines 940-942 / 992-994: `sentence_spans = span_tokenize(T)` and
`sentences = [T[s:e] for (s, e) in sentence_spans]` against the displayed
text `T`. -/
def buildNavState (tok : List Char → List (Nat × Nat)) (T : List Char) :
    NavState :=
  { finalText := T
    sentence_spans := tok T
    sentences := (tok T).map (fun p => pySlice T p.1 p.2) }

/-- U+2028, the line separator normalized by `_process_epub_text`. -/
def lineSeparator : Char := '\u2028'

/-- `_process_epub_text` (`main_window.py` lines 970-994): empty input
returns early with no state; otherwise every U+2028 is replaced by a
newline, the result is displayed, and spans/sentences are built from the
displayed text. -/
def process_epub_text (tok : List Char → List (Nat × Nat))
    (raw : List Char) : Option NavState :=
  if raw = [] then none
  else some (buildNavState tok
    (raw.map (fun c => if c = lineSeparator then '\n' else c)))

theorem chain_nonoverlap_pairwise (l : List (Nat × Nat))
    (hwf : ∀ p ∈ l, p.1 ≤ p.2)
    (hord : List.Chain' (fun a b : Nat × Nat => a.2 ≤ b.1) l) :
    List.Pairwise (fun a b : Nat × Nat => a.2 ≤ b.1) l := by
  induction l with
  | nil => exact List.Pairwise.nil
  | cons a l ih =>
    rcases l with _ | ⟨b, t⟩
    · simp
    · rw [List.chain'_cons] at hord
      have hpw := ih (fun p hp => hwf p (List.mem_cons_of_mem _ hp)) hord.2
      refine List.Pairwise.cons ?_ hpw
      intro c hc
      rcases List.mem_cons.1 hc with rfl | hct
      · exact hord.1
      · have hb2 : b.2 ≤ c.1 := (List.pairwise_cons.1 hpw).1 c hct
        have hbb := hwf b (by simp)
        omega

/-- C3: for the state built by `_process_pdf_text` lines 940-942 (spans
and sentences over an arbitrary displayed text) or by
`_process_epub_text`, every sentence is exactly the slice of the displayed
text given by its span, and — assuming the external tokenizer returns
in-order, non-overlapping spans into its argument — the span list is
sorted ascending and pairwise non-overlapping. -/
theorem sentence_spans_roundtrip (tok : List Char → List (Nat × Nat))
    (T : List Char) (st : NavState)
    (hst : st = buildNavState tok T ∨ process_epub_text tok T = some st)
    (hwf : ∀ S : List Char, ∀ p ∈ tok S, p.1 ≤ p.2)
    (hord : ∀ S : List Char,
      List.Chain' (fun a b : Nat × Nat => a.2 ≤ b.1) (tok S)) :
    st.sentences =
        st.sentence_spans.map (fun p => pySlice st.finalText p.1 p.2) ∧
      List.Pairwise (fun a b : Nat × Nat => a.2 ≤ b.1) st.sentence_spans ∧
      List.Pairwise (fun a b : Nat × Nat => a.1 ≤ b.1) st.sentence_spans := by
  have key : ∀ U : List Char,
      (buildNavState tok U).sentences =
          (buildNavState tok U).sentence_spans.map
            (fun p => pySlice (buildNavState tok U).finalText p.1 p.2) ∧
        List.Pairwise (fun a b : Nat × Nat => a.2 ≤ b.1)
          (buildNavState tok U).sentence_spans ∧
        List.Pairwise (fun a b : Nat × Nat => a.1 ≤ b.1)
          (buildNavState tok U).sentence_spans := by
    intro U
    have hnon := chain_nonoverlap_pairwise (tok U) (hwf U) (hord U)
    refine ⟨rfl, hnon, ?_⟩
    refine List.Pairwise.imp_of_mem ?_ hnon
    intro a b ha _ hab
    have := hwf U a ha
    omega
  rcases hst with rfl | hsome
  · exact key T
  · by_cases hT : T = []
    · simp [process_epub_text, hT] at hsome
    · simp only [process_epub_text, if_neg hT, Option.some.injEq] at hsome
      rw [← hsome]
      exact key _

/-- C3 witness at a concrete input. -/
theorem sentence_spans_roundtrip_witness :
    List.Pairwise (fun a b : Nat × Nat => a.2 ≤ b.1)
      (buildNavState (fun _ => [(0, 1), (2, 3)])
        ['a', 'b', 'c', 'd']).sentence_spans :=
  (sentence_spans_roundtrip (fun _ => [(0, 1), (2, 3)]) ['a', 'b', 'c', 'd']
    (buildNavState (fun _ => [(0, 1), (2, 3)]) ['a', 'b', 'c', 'd'])
    (Or.inl rfl)
    (fun _ => by
      show ∀ p ∈ [((0 : Nat), (1 : Nat)), (2, 3)], p.1 ≤ p.2
      decide)
    (fun _ => by
      show List.Chain' (fun a b : Nat × Nat => a.2 ≤ b.1) [(0, 1), (2, 3)]
      exact List.chain'_cons.2 ⟨by decide, List.chain'_singleton _⟩)).2.1

/-! ## Re-segmentation: paragraph maps (C4)

`main_window.py` lines 948-960 (`_process_pdf_text`): walk the sentence
spans, appending each index to the current paragraph, and flush the
paragraph when the text strictly between the end of a sentence and the
start of the next one contains a blank line, or at the last sentence.

`main_window.py` lines 1000-1021 (`_process_epub_text`): walk the display
widget's blocks; a block is skipped when its text strips to nothing;
otherwise the sentence cursor is advanced over every span whose end lies
within the block, and the traversed index range is flushed as one
paragraph if non-empty. -/

def pdfParaGo (T : List Char) :
    Nat → List Nat → List (Nat × Nat) → List (List Nat)
  | _, _, [] => []
  | i, cur, [_] => [cur ++ [i]]
  | i, cur, sp :: sp2 :: rest =>
    if containsSub ['\n', '\n'] (pySlice T sp.2 sp2.1) = true then
      (cur ++ [i]) :: pdfParaGo T (i + 1) [] (sp2 :: rest)
    else
      pdfParaGo T (i + 1) (cur ++ [i]) (sp2 :: rest)

/-- The paragraph map built by `_process_pdf_text` lines 948-960. -/
def pdfParaMap (T : List Char) (spans : List (Nat × Nat)) :
    List (List Nat) :=
  pdfParaGo T 0 [] spans

/-- One display block of the GUI text widget (`QTextDocument`): its text,
start position and length (including the block separator). -/
structure QBlock where
  text : List Char
  pos : Nat
  len : Nat
deriving DecidableEq

/-- The inner `while` of `_process_epub_text` lines 1013-1015: advance the
sentence cursor over every span whose end lies within the block. -/
def advanceCursor (spans : List (Nat × Nat)) (blockEnd : Nat)
    (cursor : Nat) : Nat :=
  if h : cursor < spans.length then
    if (spans[cursor]).2 ≤ blockEnd then
      advanceCursor spans blockEnd (cursor + 1)
    else cursor
  else cursor
termination_by spans.length - cursor
decreasing_by omega

def epubParaGo (spans : List (Nat × Nat)) (cursor : Nat) :
    List QBlock → List (List Nat)
  | [] => []
  | b :: rest =>
    if stripChars b.text = [] then epubParaGo spans cursor rest
    else
      let c2 := advanceCursor spans (b.pos + b.len) cursor
      let para := List.range' cursor (c2 - cursor)
      if para = [] then epubParaGo spans c2 rest
      else para :: epubParaGo spans c2 rest

/-- The paragraph map built by `_process_epub_text` lines 1000-1021. -/
def epubParaMap (spans : List (Nat × Nat)) (blocks : List QBlock) :
    List (List Nat) :=
  epubParaGo spans 0 blocks

/-- The sentence cursor value after the whole block walk. -/
def epubFinalCursor (spans : List (Nat × Nat)) (cursor : Nat) :
    List QBlock → Nat
  | [] => cursor
  | b :: rest =>
    if stripChars b.text = [] then epubFinalCursor spans cursor rest
    else epubFinalCursor spans (advanceCursor spans (b.pos + b.len) cursor) rest

theorem advanceCursor_eq (spans : List (Nat × Nat)) (B : Nat) :
    ∀ cursor, advanceCursor spans B cursor =
      cursor +
        ((spans.drop cursor).takeWhile (fun sp => decide (sp.2 ≤ B))).length := by
  have H : ∀ fuel cursor, spans.length - cursor ≤ fuel →
      advanceCursor spans B cursor =
        cursor +
          ((spans.drop cursor).takeWhile
            (fun sp => decide (sp.2 ≤ B))).length := by
    intro fuel
    induction fuel with
    | zero =>
      intro cursor hf
      rw [advanceCursor, dif_neg (by omega),
        List.drop_eq_nil_of_le (by omega)]
      simp
    | succ n ihn =>
      intro cursor hf
      rw [advanceCursor]
      by_cases hlt : cursor < spans.length
      · rw [dif_pos hlt, List.drop_eq_getElem_cons hlt, List.takeWhile_cons]
        by_cases hsp : (spans[cursor]).2 ≤ B
        · rw [if_pos hsp, ihn (cursor + 1) (by omega)]
          simp [hsp]
          omega
        · rw [if_neg hsp]
          simp [hsp]
      · rw [dif_neg hlt, List.drop_eq_nil_of_le (by omega)]
        simp
  intro cursor
  exact H spans.length cursor (by omega)

theorem advanceCursor_ge (spans : List (Nat × Nat)) (B cursor : Nat) :
    cursor ≤ advanceCursor spans B cursor := by
  rw [advanceCursor_eq]
  omega

theorem advanceCursor_le_length (spans : List (Nat × Nat)) (B cursor : Nat)
    (hc : cursor ≤ spans.length) :
    advanceCursor spans B cursor ≤ spans.length := by
  rw [advanceCursor_eq]
  have h1 : ((spans.drop cursor).takeWhile
      (fun sp => decide (sp.2 ≤ B))).length ≤ (spans.drop cursor).length :=
    (List.takeWhile_sublist _).length_le
  have h2 : (spans.drop cursor).length = spans.length - cursor := by simp
  omega

theorem advanceCursor_full (spans : List (Nat × Nat)) (B cursor : Nat)
    (hall : ∀ sp ∈ spans, sp.2 ≤ B) (hc : cursor ≤ spans.length) :
    advanceCursor spans B cursor = spans.length := by
  rw [advanceCursor_eq]
  have h1 : (spans.drop cursor).takeWhile (fun sp => decide (sp.2 ≤ B)) =
      spans.drop cursor :=
    List.takeWhile_eq_self_iff.2
      (fun sp hsp => by simpa using hall sp (List.mem_of_mem_drop hsp))
  rw [h1]
  simp
  omega

theorem epubFinalCursor_ge (spans : List (Nat × Nat)) (blocks : List QBlock) :
    ∀ cursor, cursor ≤ epubFinalCursor spans cursor blocks := by
  induction blocks with
  | nil => intro cursor; exact Nat.le_refl _
  | cons b rest ih =>
    intro cursor
    by_cases hb : stripChars b.text = []
    · simpa [epubFinalCursor, hb] using ih cursor
    · simp only [epubFinalCursor, if_neg hb]
      exact Nat.le_trans (advanceCursor_ge spans _ cursor) (ih _)

theorem epubFinalCursor_le_length (spans : List (Nat × Nat))
    (blocks : List QBlock) :
    ∀ cursor, cursor ≤ spans.length →
      epubFinalCursor spans cursor blocks ≤ spans.length := by
  induction blocks with
  | nil => intro cursor hc; exact hc
  | cons b rest ih =>
    intro cursor hc
    by_cases hb : stripChars b.text = []
    · simpa [epubFinalCursor, hb] using ih cursor hc
    · simp only [epubFinalCursor, if_neg hb]
      exact ih _ (advanceCursor_le_length spans _ cursor hc)

theorem epubFinalCursor_of_full (spans : List (Nat × Nat))
    (blocks : List QBlock) :
    epubFinalCursor spans spans.length blocks = spans.length := by
  induction blocks with
  | nil => rfl
  | cons b rest ih =>
    by_cases hb : stripChars b.text = []
    · simpa [epubFinalCursor, hb] using ih
    · simp only [epubFinalCursor, if_neg hb]
      rw [advanceCursor_eq, List.drop_eq_nil_of_le (Nat.le_refl _)]
      simpa using ih

theorem epubFinalCursor_eq_length (spans : List (Nat × Nat))
    (blocks : List QBlock) (b : QBlock) (hbmem : b ∈ blocks)
    (hnb : stripChars b.text ≠ [])
    (hall : ∀ sp ∈ spans, sp.2 ≤ b.pos + b.len) :
    ∀ cursor, cursor ≤ spans.length →
      epubFinalCursor spans cursor blocks = spans.length := by
  induction blocks with
  | nil => exact absurd hbmem (by simp)
  | cons b0 rest ih =>
    intro cursor hc
    rcases List.mem_cons.1 hbmem with rfl | hbr
    · simp only [epubFinalCursor, if_neg hnb]
      rw [advanceCursor_full spans _ cursor hall hc]
      exact epubFinalCursor_of_full spans rest
    · by_cases hb0 : stripChars b0.text = []
      · simpa [epubFinalCursor, hb0] using ih hbr cursor hc
      · simp only [epubFinalCursor, if_neg hb0]
        exact ih hbr _ (advanceCursor_le_length spans _ cursor hc)

theorem epubParaGo_flatten (spans : List (Nat × Nat)) (blocks : List QBlock) :
    ∀ cursor, (epubParaGo spans cursor blocks).flatten =
      List.range' cursor (epubFinalCursor spans cursor blocks - cursor) := by
  induction blocks with
  | nil => intro cursor; simp [epubParaGo, epubFinalCursor]
  | cons b rest ih =>
    intro cursor
    by_cases hb : stripChars b.text = []
    · simpa [epubParaGo, epubFinalCursor, hb] using ih cursor
    · simp only [epubParaGo, epubFinalCursor, if_neg hb]
      have hge : cursor ≤ advanceCursor spans (b.pos + b.len) cursor :=
        advanceCursor_ge spans _ cursor
      have hge2 : advanceCursor spans (b.pos + b.len) cursor ≤
          epubFinalCursor spans (advanceCursor spans (b.pos + b.len) cursor)
            rest :=
        epubFinalCursor_ge spans rest _
      by_cases hpara : List.range' cursor
          (advanceCursor spans (b.pos + b.len) cursor - cursor) = []
      · have hcc : advanceCursor spans (b.pos + b.len) cursor = cursor := by
          have := List.range'_eq_nil.1 hpara
          omega
        simp only [if_pos hpara]
        rw [ih _, hcc]
      · simp only [if_neg hpara, List.flatten_cons]
        rw [ih _]
        have happ := List.range'_append cursor
          (advanceCursor spans (b.pos + b.len) cursor - cursor)
          (epubFinalCursor spans (advanceCursor spans (b.pos + b.len) cursor)
            rest - advanceCursor spans (b.pos + b.len) cursor) 1
        simp only [Nat.one_mul] at happ
        rw [Nat.add_sub_cancel' hge] at happ
        rw [happ]
        congr 1
        omega

theorem epubParaGo_groups (spans : List (Nat × Nat)) (blocks : List QBlock) :
    ∀ cursor g, g ∈ epubParaGo spans cursor blocks →
      ∃ a n, g = List.range' a n ∧ g ≠ [] := by
  induction blocks with
  | nil => intro cursor g hg; simp [epubParaGo] at hg
  | cons b rest ih =>
    intro cursor g hg
    by_cases hb : stripChars b.text = []
    · exact ih cursor g (by simpa [epubParaGo, hb] using hg)
    · simp only [epubParaGo, if_neg hb] at hg
      by_cases hpara : List.range' cursor
          (advanceCursor spans (b.pos + b.len) cursor - cursor) = []
      · rw [if_pos hpara] at hg
        exact ih _ g hg
      · rw [if_neg hpara] at hg
        rcases List.mem_cons.1 hg with rfl | hgr
        · exact ⟨cursor, _, rfl, hpara⟩
        · exact ih _ g hgr

theorem pdfParaGo_flatten (T : List Char) :
    ∀ (spans : List (Nat × Nat)) i cur, spans ≠ [] →
      (pdfParaGo T i cur spans).flatten = cur ++ List.range' i spans.length := by
  intro spans
  induction spans with
  | nil => intro i cur h; exact absurd rfl h
  | cons sp rest ih =>
    intro i cur _
    cases rest with
    | nil => simp [pdfParaGo, List.range']
    | cons sp2 t =>
      by_cases hbr : containsSub ['\n', '\n'] (pySlice T sp.2 sp2.1) = true
      · simp only [pdfParaGo, if_pos hbr, List.flatten_cons]
        rw [ih (i + 1) [] (by simp)]
        simp [List.range']
      · simp only [pdfParaGo, if_neg hbr]
        rw [ih (i + 1) (cur ++ [i]) (by simp)]
        simp [List.range']

theorem range'_snoc (j n : Nat) :
    List.range' j n ++ [j + n] = List.range' j (n + 1) := by
  have h := List.range'_append j n 1 1
  simpa [Nat.add_comm] using h

theorem pdfParaGo_groups (T : List Char) :
    ∀ (spans : List (Nat × Nat)) i j, j ≤ i →
      ∀ g ∈ pdfParaGo T i (List.range' j (i - j)) spans,
        ∃ a n, g = List.range' a n ∧ g ≠ [] := by
  intro spans
  induction spans with
  | nil => intro i j _ g hg; simp [pdfParaGo] at hg
  | cons sp rest ih =>
    intro i j hji g hg
    have hcur : List.range' j (i - j) ++ [i] = List.range' j (i - j + 1) := by
      have := range'_snoc j (i - j)
      rwa [Nat.add_sub_cancel' hji] at this
    cases rest with
    | nil =>
      simp only [pdfParaGo, List.mem_singleton] at hg
      subst hg
      exact ⟨j, i - j + 1, hcur, by rw [hcur]; simp [List.range'_eq_nil]⟩
    | cons sp2 t =>
      by_cases hbr : containsSub ['\n', '\n'] (pySlice T sp.2 sp2.1) = true
      · simp only [pdfParaGo, if_pos hbr, List.mem_cons] at hg
        rcases hg with rfl | hg
        · exact ⟨j, i - j + 1, hcur, by rw [hcur]; simp [List.range'_eq_nil]⟩
        · have := ih (i + 1) (i + 1) (Nat.le_refl _)
          simp only [Nat.sub_self, List.range'] at this
          exact this g hg
      · simp only [pdfParaGo, if_neg hbr] at hg
        have := ih (i + 1) j (by omega)
        rw [show i + 1 - j = i - j + 1 by omega, ← hcur] at this
        exact this g hg

/-- C4: the paragraph maps partition the sentence indices exactly.  For
the PDF path this is unconditional: flattening `paragraph_sentence_map`
yields `0..N-1` in order and every paragraph is a non-empty contiguous
ascending run.  For the EPUB path the same holds provided some non-blank
display block extends past the end of every sentence span (the display
blocks of the widget cover the analysed text, so the block containing the
final sentence has this property). -/
theorem paragraph_maps_partition (T : List Char) (spans : List (Nat × Nat))
    (blocks : List QBlock)
    (hb : ∃ b ∈ blocks, stripChars b.text ≠ [] ∧
      ∀ sp ∈ spans, sp.2 ≤ b.pos + b.len) :
    ((pdfParaMap T spans).flatten = List.range spans.length ∧
      ∀ g ∈ pdfParaMap T spans, ∃ a n, g = List.range' a n ∧ g ≠ []) ∧
    ((epubParaMap spans blocks).flatten = List.range spans.length ∧
      ∀ g ∈ epubParaMap spans blocks, ∃ a n, g = List.range' a n ∧ g ≠ []) := by
  refine ⟨⟨?_, ?_⟩, ?_, ?_⟩
  · cases spans with
    | nil => simp [pdfParaMap, pdfParaGo]
    | cons sp rest =>
      rw [pdfParaMap, pdfParaGo_flatten T (sp :: rest) 0 [] (by simp),
        List.range_eq_range']
      simp
  · intro g hg
    have := pdfParaGo_groups T spans 0 0 (Nat.le_refl _)
    simp only [Nat.sub_self, List.range'] at this
    exact this g hg
  · obtain ⟨b, hbmem, hnb, hall⟩ := hb
    rw [epubParaMap, epubParaGo_flatten spans blocks 0,
      epubFinalCursor_eq_length spans blocks b hbmem hnb hall 0 (by omega),
      List.range_eq_range']
    simp
  · intro g hg
    exact epubParaGo_groups spans blocks 0 g hg

/-- C4 witness at a concrete input. -/
theorem paragraph_maps_partition_witness :
    (epubParaMap [(0, 1)] [⟨['a'], 0, 2⟩]).flatten = List.range 1 :=
  (paragraph_maps_partition ['a'] [(0, 1)] [⟨['a'], 0, 2⟩]
    ⟨⟨['a'], 0, 2⟩, by simp, by decide, by decide⟩).2.1

/-! ## Image Grouping (`_group_images`)

`epub_handler.py` lines 30-72: images extracted from non-text documents
are bucketed into cover / per-chapter / ending groups by the document's
position relative to the first and last chapter-group units.  Images are
modelled by their numeric ids; `image_map` is an association list from
document href to its image list.  In the zero-chapter-groups branch the
Python code appends each document's whole image list to `cover`; the model
concatenates them, which routes the same images to `cover` in the same
order. -/

structure ImageBuckets where
  cover : List Nat
  chapters : List (List Nat)
  ending : List Nat
deriving DecidableEq

/-- `href in image_map` / `image_map[href]`. -/
def lookupImages (m : List (String × List Nat)) (h : String) :
    Option (List Nat) :=
  (m.find? (fun p => p.1 == h)).map Prod.snd

/-- The dict comprehension `href_to_chapter_index` (line 49): maps an href
to the index of the *last* chapter group containing it (later dict entries
overwrite earlier ones). -/
def hrefToChapterIndexGo (href : String) :
    List (List String) → Nat → Option Nat
  | [], _ => none
  | g :: gs, i =>
    match hrefToChapterIndexGo href gs (i + 1) with
    | some ci => some ci
    | none => if href ∈ g then some i else none

def hrefToChapterIndex (groups : List (List String)) (href : String) :
    Option Nat :=
  hrefToChapterIndexGo href groups 0

/-- The backward scan of lines 60-65: from position `j` downwards, the
chapter index of the nearest preceding document that belongs to a chapter
group (`none` standing for the sentinel `-1`). -/
def scanBack (groups : List (List String)) (docs : List String) :
    Nat → Option Nat
  | 0 => hrefToChapterIndex groups (docs.getD 0 "")
  | j + 1 =>
    match hrefToChapterIndex groups (docs.getD (j + 1) "") with
    | some ci => some ci
    | none => scanBack groups docs j

/-- The body of the loop of lines 52-67 for the document at position `i`
with href `h`. -/
def groupImagesStep (first last : Nat) (groups : List (List String))
    (m : List (String × List Nat)) (docs : List String)
    (acc : ImageBuckets) (i : Nat) (h : String) : ImageBuckets :=
  match lookupImages m h with
  | none => acc
  | some imgs =>
    if i < first then { acc with cover := acc.cover ++ imgs }
    else if last < i then { acc with ending := acc.ending ++ imgs }
    else
      match scanBack groups docs i with
      | some ci =>
        { acc with chapters :=
            acc.chapters.set ci (acc.chapters.getD ci [] ++ imgs) }
      | none => acc

def groupImagesGo (first last : Nat) (groups : List (List String))
    (m : List (String × List Nat)) (docs : List String) :
    Nat → List String → ImageBuckets → ImageBuckets
  | _, [], acc => acc
  | i, h :: t, acc =>
    groupImagesGo first last groups m docs (i + 1) t
      (groupImagesStep first last groups m docs acc i h)

/-- `first_chapter_start_index = all_docs_in_order.index(chapter_groups[0][0])`
(line 47; `findIdx` returns the list length where Python would raise on a
missing href). -/
def firstChapterStartIndex (groups : List (List String))
    (docs : List String) : Nat :=
  docs.findIdx (fun x => x == (groups.headD []).headD "")

/-- `last_chapter_end_index = all_docs_in_order.index(chapter_groups[-1][-1])`
(line 48). -/
def lastChapterEndIndex (groups : List (List String))
    (docs : List String) : Nat :=
  docs.findIdx (fun x => x == (groups.getLastD []).getLastD "")

/-- `_group_images`: with no chapter groups every image goes to `cover`;
otherwise each image-bearing document is bucketed by its position against
`first_chapter_start_index` and `last_chapter_end_index`. -/
def group_images (groups : List (List String))
    (m : List (String × List Nat)) (docs : List String) : ImageBuckets :=
  match groups with
  | [] => ⟨m.foldl (fun acc p => acc ++ p.2) [], [], []⟩
  | _ :: _ =>
    groupImagesGo (firstChapterStartIndex groups docs)
      (lastChapterEndIndex groups docs) groups m docs 0 docs
      ⟨[], groups.map (fun _ => []), []⟩

theorem hrefToChapterIndexGo_lt (href : String) (gs : List (List String)) :
    ∀ i ci, hrefToChapterIndexGo href gs i = some ci → ci < i + gs.length := by
  induction gs with
  | nil => intro i ci h; simp [hrefToChapterIndexGo] at h
  | cons g rest ih =>
    intro i ci h
    simp only [hrefToChapterIndexGo] at h
    cases hm : hrefToChapterIndexGo href rest (i + 1) with
    | some cj =>
      rw [hm] at h
      simp only [Option.some.injEq] at h
      subst h
      have := ih (i + 1) cj hm
      simp only [List.length_cons]
      omega
    | none =>
      rw [hm] at h
      by_cases hg : href ∈ g
      · rw [if_pos hg] at h
        simp only [Option.some.injEq] at h
        subst h
        simp only [List.length_cons]
        omega
      · rw [if_neg hg] at h
        exact absurd h (by simp)

theorem scanBack_lt (groups : List (List String)) (docs : List String) :
    ∀ j ci, scanBack groups docs j = some ci → ci < groups.length := by
  intro j
  induction j with
  | zero =>
    intro ci h
    simpa using hrefToChapterIndexGo_lt (docs.getD 0 "") groups 0 ci h
  | succ j ih =>
    intro ci h
    simp only [scanBack] at h
    cases hm : hrefToChapterIndex groups (docs.getD (j + 1) "") with
    | some cj =>
      rw [hm] at h
      simp only [Option.some.injEq] at h
      subst h
      simpa using hrefToChapterIndexGo_lt (docs.getD (j + 1) "") groups 0 cj hm
    | none =>
      rw [hm] at h
      exact ih ci h

theorem getD_set_self (l : List (List Nat)) (ci : Nat) (x : List Nat)
    (h : ci < l.length) : (l.set ci x).getD ci [] = x := by
  rw [List.getD_eq_getElem?_getD, List.getElem?_set_self h]
  rfl

theorem getD_set_ne (l : List (List Nat)) (ci j : Nat) (x : List Nat)
    (h : ci ≠ j) : (l.set ci x).getD j [] = l.getD j [] := by
  rw [List.getD_eq_getElem?_getD, List.getElem?_set_ne h,
    ← List.getD_eq_getElem?_getD]

theorem groupImagesStep_mono (first last : Nat) (groups : List (List String))
    (m : List (String × List Nat)) (docs : List String) (acc : ImageBuckets)
    (i : Nat) (h : String) (hlen : acc.chapters.length = groups.length) :
    (groupImagesStep first last groups m docs acc i h).chapters.length =
        groups.length ∧
      (∀ x ∈ acc.cover,
        x ∈ (groupImagesStep first last groups m docs acc i h).cover) ∧
      (∀ x ∈ acc.ending,
        x ∈ (groupImagesStep first last groups m docs acc i h).ending) ∧
      (∀ ci x, x ∈ acc.chapters.getD ci [] →
        x ∈ (groupImagesStep first last groups m docs acc i h).chapters.getD
          ci []) := by
  unfold groupImagesStep
  cases lookupImages m h with
  | none => exact ⟨hlen, fun _ hx => hx, fun _ hx => hx, fun _ _ hx => hx⟩
  | some imgs =>
    dsimp only
    by_cases h1 : i < first
    · rw [if_pos h1]
      exact ⟨hlen, fun x hx => List.mem_append_left _ hx,
        fun _ hx => hx, fun _ _ hx => hx⟩
    · rw [if_neg h1]
      by_cases h2 : last < i
      · rw [if_pos h2]
        exact ⟨hlen, fun _ hx => hx,
          fun x hx => List.mem_append_left _ hx, fun _ _ hx => hx⟩
      · rw [if_neg h2]
        cases hsb : scanBack groups docs i with
        | none => exact ⟨hlen, fun _ hx => hx, fun _ hx => hx, fun _ _ hx => hx⟩
        | some ci' =>
          have hci' : ci' < acc.chapters.length := by
            rw [hlen]; exact scanBack_lt groups docs i ci' hsb
          refine ⟨by simpa using hlen, fun _ hx => hx, fun _ hx => hx, ?_⟩
          intro ci x hx
          by_cases hc : ci' = ci
          · subst hc
            rw [getD_set_self _ _ _ hci']
            exact List.mem_append_left _ hx
          · rw [getD_set_ne _ _ _ _ hc]
            exact hx

theorem groupImagesGo_mono (first last : Nat) (groups : List (List String))
    (m : List (String × List Nat)) (docs : List String) (l : List String) :
    ∀ i acc, acc.chapters.length = groups.length →
      (groupImagesGo first last groups m docs i l acc).chapters.length =
          groups.length ∧
        (∀ x ∈ acc.cover,
          x ∈ (groupImagesGo first last groups m docs i l acc).cover) ∧
        (∀ x ∈ acc.ending,
          x ∈ (groupImagesGo first last groups m docs i l acc).ending) ∧
        (∀ ci x, x ∈ acc.chapters.getD ci [] →
          x ∈ (groupImagesGo first last groups m docs i l acc).chapters.getD
            ci []) := by
  induction l with
  | nil =>
    intro i acc hlen
    exact ⟨hlen, fun _ hx => hx, fun _ hx => hx, fun _ _ hx => hx⟩
  | cons h t ih =>
    intro i acc hlen
    have hstep := groupImagesStep_mono first last groups m docs acc i h hlen
    have hrec := ih (i + 1) (groupImagesStep first last groups m docs acc i h)
      hstep.1
    simp only [groupImagesGo]
    exact ⟨hrec.1, fun x hx => hrec.2.1 x (hstep.2.1 x hx),
      fun x hx => hrec.2.2.1 x (hstep.2.2.1 x hx),
      fun ci x hx => hrec.2.2.2 ci x (hstep.2.2.2 ci x hx)⟩

theorem groupImagesGo_insert (first last : Nat) (groups : List (List String))
    (m : List (String × List Nat)) (docs : List String) (l : List String) :
    ∀ i acc, acc.chapters.length = groups.length →
      ∀ j h imgs, l[j]? = some h → lookupImages m h = some imgs →
        ((i + j < first → ∀ x ∈ imgs,
            x ∈ (groupImagesGo first last groups m docs i l acc).cover) ∧
          (¬ i + j < first → last < i + j → ∀ x ∈ imgs,
            x ∈ (groupImagesGo first last groups m docs i l acc).ending) ∧
          (¬ i + j < first → ¬ last < i + j →
            ∀ ci, scanBack groups docs (i + j) = some ci → ∀ x ∈ imgs,
            x ∈ (groupImagesGo first last groups m docs i l
              acc).chapters.getD ci [])) := by
  induction l with
  | nil => intro i acc _ j h imgs hj; simp at hj
  | cons h0 t ih =>
    intro i acc hlen j h imgs hj hm
    cases j with
    | zero =>
      simp only [List.getElem?_cons_zero, Option.some.injEq] at hj
      subst hj
      simp only [groupImagesGo, Nat.add_zero]
      have hstep := groupImagesStep_mono first last groups m docs acc i h0 hlen
      have hmono := groupImagesGo_mono first last groups m docs t (i + 1)
        (groupImagesStep first last groups m docs acc i h0) hstep.1
      refine ⟨?_, ?_, ?_⟩
      · intro hfirst x hx
        apply hmono.2.1
        unfold groupImagesStep
        rw [hm]
        dsimp only
        rw [if_pos hfirst]
        exact List.mem_append_right _ hx
      · intro hfirst hlast x hx
        apply hmono.2.2.1
        unfold groupImagesStep
        rw [hm]
        dsimp only
        rw [if_neg hfirst, if_pos hlast]
        exact List.mem_append_right _ hx
      · intro hfirst hlast ci hsb x hx
        apply hmono.2.2.2
        unfold groupImagesStep
        rw [hm]
        dsimp only
        rw [if_neg hfirst, if_neg hlast, hsb]
        have hci : ci < acc.chapters.length := by
          rw [hlen]; exact scanBack_lt groups docs i ci hsb
        rw [getD_set_self _ _ _ hci]
        exact List.mem_append_right _ hx
    | succ j' =>
      simp only [List.getElem?_cons_succ] at hj
      have hstep := groupImagesStep_mono first last groups m docs acc i h0 hlen
      have hrec := ih (i + 1)
        (groupImagesStep first last groups m docs acc i h0) hstep.1 j' h imgs
        hj hm
      have hidx : i + (j' + 1) = i + 1 + j' := by omega
      simp only [groupImagesGo, hidx]
      exact hrec

theorem foldl_append_flatten (m : List (String × List Nat)) :
    ∀ init, m.foldl (fun acc p => acc ++ p.2) init =
      init ++ (m.map Prod.snd).flatten := by
  induction m with
  | nil => intro init; simp
  | cons p t ih =>
    intro init
    rw [List.foldl_cons, ih]
    simp

theorem scanBack_nearest (groups : List (List String)) (docs : List String) :
    ∀ j ci, scanBack groups docs j = some ci →
      ∃ j', j' ≤ j ∧
        hrefToChapterIndex groups (docs.getD j' "") = some ci ∧
        ∀ k, j' < k → k ≤ j →
          hrefToChapterIndex groups (docs.getD k "") = none := by
  intro j
  induction j with
  | zero =>
    intro ci h
    exact ⟨0, Nat.le_refl _, h, fun k hk1 hk2 => by omega⟩
  | succ j ih =>
    intro ci h
    simp only [scanBack] at h
    cases hm : hrefToChapterIndex groups (docs.getD (j + 1) "") with
    | some cj =>
      rw [hm] at h
      simp only [Option.some.injEq] at h
      subst h
      exact ⟨j + 1, Nat.le_refl _, hm, fun k hk1 hk2 => by omega⟩
    | none =>
      rw [hm] at h
      obtain ⟨j', hj1, hj2, hj3⟩ := ih ci h
      refine ⟨j', Nat.le_succ_of_le hj1, hj2, fun k hk1 hk2 => ?_⟩
      rcases Nat.lt_or_ge k (j + 1) with hk | hk
      · exact hj3 k hk1 (by omega)
      · have hkk : k = j + 1 := by omega
        rw [hkk]
        exact hm

/-- C9: `_group_images` buckets every image.  With zero chapter groups all
images go to `cover`.  Otherwise, for an image-bearing document at
position `i`: before the first chapter unit its images go to `cover`,
after the last chapter unit to `ending`, and in between to the chapter
group found by the backward scan, which returns the chapter index of the
nearest preceding document belonging to a chapter group; in the concrete
scenario with groups `G1 = [a1,a2,a3]`, `G2 = [b1,b2]` and an image
document `x` between `a3` and `b1`, the image lands in `G1`. -/
theorem group_images_buckets :
    (∀ (m : List (String × List Nat)) (docs : List String),
      group_images [] m docs = ⟨(m.map Prod.snd).flatten, [], []⟩) ∧
    (∀ (groups : List (List String)) (m : List (String × List Nat))
        (docs : List String) (g0 : List String) (gs : List (List String)),
      groups = g0 :: gs →
      ∀ (i : Nat) (h : String) (imgs : List Nat),
        docs[i]? = some h → lookupImages m h = some imgs →
        ((i < firstChapterStartIndex groups docs →
            ∀ x ∈ imgs, x ∈ (group_images groups m docs).cover) ∧
          (¬ i < firstChapterStartIndex groups docs →
            lastChapterEndIndex groups docs < i →
            ∀ x ∈ imgs, x ∈ (group_images groups m docs).ending) ∧
          (¬ i < firstChapterStartIndex groups docs →
            ¬ lastChapterEndIndex groups docs < i →
            ∀ ci, scanBack groups docs i = some ci → ∀ x ∈ imgs,
              x ∈ (group_images groups m docs).chapters.getD ci []))) ∧
    (∀ (groups : List (List String)) (docs : List String) (j ci : Nat),
      scanBack groups docs j = some ci →
      ∃ j', j' ≤ j ∧
        hrefToChapterIndex groups (docs.getD j' "") = some ci ∧
        ∀ k, j' < k → k ≤ j →
          hrefToChapterIndex groups (docs.getD k "") = none) ∧
    group_images [["a1", "a2", "a3"], ["b1", "b2"]] [("x", [7])]
        ["a1", "a2", "a3", "x", "b1", "b2"] = ⟨[], [[7], []], []⟩ := by
  refine ⟨?_, ?_, ?_, ?_⟩
  · intro m docs
    simp only [group_images]
    rw [foldl_append_flatten m []]
    simp
  · intro groups m docs g0 gs hg i h imgs hi hm
    subst hg
    have hlen : (ImageBuckets.mk [] ((g0 :: gs).map (fun _ => []))
        []).chapters.length = (g0 :: gs).length := by simp
    have key := groupImagesGo_insert (firstChapterStartIndex (g0 :: gs) docs)
      (lastChapterEndIndex (g0 :: gs) docs) (g0 :: gs) m docs docs 0
      ⟨[], (g0 :: gs).map (fun _ => []), []⟩ hlen i h imgs hi hm
    simp only [Nat.zero_add] at key
    simp only [group_images]
    exact key
  · exact fun groups docs j ci hsb => scanBack_nearest groups docs j ci hsb
  · decide

/-- C9 witness at a concrete input. -/
theorem group_images_buckets_witness :
    7 ∈ (group_images [["a1", "a2", "a3"], ["b1", "b2"]] [("x", [7])]
      ["a1", "a2", "a3", "x", "b1", "b2"]).chapters.getD 0 [] :=
  (group_images_buckets.2.1 [["a1", "a2", "a3"], ["b1", "b2"]] [("x", [7])]
    ["a1", "a2", "a3", "x", "b1", "b2"] ["a1", "a2", "a3"] [["b1", "b2"]]
    rfl 3 "x" [7] (by decide) (by decide)).2.2 (by decide) (by decide)
    0 (by decide) 7 (by decide)
